import Mathlib

/-!
Verification of the transcription-correction and key-idea timestamp-alignment
subsystem of the sermon-gen repository.

Texts are modelled as `List Char` (Python strings are sequences of code
points); Python floats are modelled as exact rationals `ℚ`.  Each definition
mirrors one Python function of the repository, keeping its name and control
flow.
-/

set_option linter.unusedVariables false
set_option maxRecDepth 100000

/-- A text, modelled as the list of its characters. -/
abbrev Str := List Char

namespace SermonGen

/-- Python `s.split('\n')`: split at every newline, keeping empty pieces
(`"".split('\n') == [""]`). -/
def splitNl : Str → List Str
  | [] => [[]]
  | c :: rest =>
    if c = '\n' then [] :: splitNl rest
    else
      match splitNl rest with
      | [] => [[c]]
      | h :: t => (c :: h) :: t

/-- Python `sep.join(lines)` for a one-character separator. -/
def joinWith (sep : Char) : List Str → Str
  | [] => []
  | [l] => l
  | l :: l2 :: rest => l ++ sep :: joinWith sep (l2 :: rest)

/-- Python `'\n'.join(lines)`. -/
def joinNl (ls : List Str) : Str := joinWith '\n' ls

/-- Python `' '.join(lines)`. -/
def joinSp (ls : List Str) : Str := joinWith ' ' ls

/-- The characters stripped by Python `str.strip()` / `str.lstrip()`
(the ASCII whitespace class). -/
def pyWs (c : Char) : Bool :=
  c = ' ' || c = '\t' || c = '\n' || c = '\r' || c = '\x0b' || c = '\x0c'

/-- Python `s.lstrip()`. -/
def lstrip (s : Str) : Str := s.dropWhile pyWs

/-- Python `s.strip()`. -/
def strip (s : Str) : Str := ((s.dropWhile pyWs).reverse.dropWhile pyWs).reverse

/-- Python `s.lower()` (ASCII case folding). -/
def lower (s : Str) : Str := s.map Char.toLower

/-- Python `needle in hay` (substring containment). -/
def isSubstr (n : Str) : Str → Bool
  | [] => n.isPrefixOf []
  | c :: t => n.isPrefixOf (c :: t) || isSubstr n t

/-- Helper for `pySplit`: the accumulator holds the current word, reversed. -/
def pySplitAux : Str → Str → List Str
  | [], acc => if acc = [] then [] else [acc.reverse]
  | c :: t, acc =>
    if pyWs c then
      if acc = [] then pySplitAux t [] else acc.reverse :: pySplitAux t []
    else pySplitAux t (c :: acc)

/-- Python `s.split()` (no argument): split on whitespace runs, discarding
empty pieces. -/
def pySplit (s : Str) : List Str := pySplitAux s []

/-- Distinct elements of a list, keeping the first occurrence of each
(models the element set of a Python `set`). -/
def dedupFirst : List Str → List Str
  | [] => []
  | a :: l => a :: (dedupFirst l).filter (fun x => x ≠ a)

/-! ## Key-idea timestamp alignment (`audio_processor.add_timestamps_to_ideas`) -/

/-- One time-coded segment of the transcription JSON. -/
structure Segment where
  start : ℚ
  stop : ℚ
  text : Str
deriving DecidableEq

/-- The transcription JSON: a segment list plus a total duration
(`transcription.get('duration', 0)`). -/
structure Transcription where
  segments : List Segment
  duration : ℚ
deriving DecidableEq

/-- A key idea before alignment: its text and its relative position
(`idea['texto']`, `idea.get('posicion_relativa', 0)`). -/
structure Idea where
  texto : Str
  posicion_relativa : ℚ
deriving DecidableEq

/-- The fields `add_timestamps_to_ideas` writes into an idea. -/
structure Alignment where
  timestamp_start : ℚ
  timestamp_end : ℚ
  segment_text : Str
  match_confidence : ℚ
deriving DecidableEq

/-- The number of distinct lowercased words the idea and the segment share
(`len(palabras_idea.intersection(palabras_segmento))`). -/
def palabrasComunes (texto_idea texto_segmento : Str) : ℕ :=
  let palabras_idea := dedupFirst (pySplit (lower texto_idea))
  let palabras_segmento := pySplit (lower texto_segmento)
  (palabras_idea.filter (fun w => w ∈ palabras_segmento)).length

/-- The similarity score of one segment against the idea
(`comunes / max(1, len(palabras_idea))`). -/
def puntuacionDe (texto_idea texto_segmento : Str) : ℚ :=
  (palabrasComunes texto_idea texto_segmento : ℚ) /
    (max 1 (dedupFirst (pySplit (lower texto_idea))).length : ℕ)

/-- The segment-scanning loop of `add_timestamps_to_ideas`: returns the final
`(mejor_coincidencia, mejor_puntuacion)` pair.  A containment hit returns
immediately (the Python `break`), keeping the score accumulated so far. -/
def buscarCoincidencia (texto_idea : Str) :
    List Segment → Option Segment → ℚ → Option Segment × ℚ
  | [], mejor, punt => (mejor, punt)
  | seg :: rest, mejor, punt =>
    let texto_segmento := strip seg.text
    if texto_segmento = [] then buscarCoincidencia texto_idea rest mejor punt
    else if isSubstr texto_idea texto_segmento then (some seg, punt)
    else
      let puntuacion := puntuacionDe texto_idea texto_segmento
      if punt < puntuacion then buscarCoincidencia texto_idea rest (some seg) puntuacion
      else buscarCoincidencia texto_idea rest mejor punt

/-- The positional fallback of `add_timestamps_to_ideas` (`else` branch):
`duration or 2000`, placement by `posicion_relativa`, a 10-second span
clamped to the duration, and confidence 0. -/
def posicional (idea : Idea) (t : Transcription) : Alignment :=
  let duration := if t.duration = 0 then 2000 else t.duration
  let pos := idea.posicion_relativa
  { timestamp_start := pos * duration
    timestamp_end := min duration (pos * duration + 10)
    segment_text := "No encontrado".data
    match_confidence := 0 }

/-- The per-idea body of `add_timestamps_to_ideas`: `none` when the idea's
stripped text is empty (the `continue`), otherwise the produced timestamp
fields. -/
def alignIdea (idea : Idea) (t : Transcription) : Option Alignment :=
  let texto_idea := strip idea.texto
  if texto_idea = [] then none
  else
    match buscarCoincidencia texto_idea t.segments none 0 with
    | (some seg, punt) =>
      if 7/10 < punt then
        some { timestamp_start := seg.start
               timestamp_end := seg.stop
               segment_text := seg.text
               match_confidence := punt }
      else some (posicional idea t)
    | (none, _) => some (posicional idea t)

/-! ## Integrity verification (`transcription_corrector.verificar_integridad`) -/

/-- The candidate signature phrases of `verificar_integridad`: lowercased
3-word windows of the original, kept when longer than 15 characters.
The Python code collects them into a `set`; the set's elements are modelled
in first-occurrence order by `dedupFirst` at the use site. -/
def frasesSignificativas (texto_original : Str) : List Str :=
  let palabras_original := pySplit texto_original
  if 3 ≤ palabras_original.length then
    ((List.range (palabras_original.length - 2)).map
        (fun i => lower (joinSp ((palabras_original.drop i).take 3)))).filter
      (fun frase => 15 < frase.length)
  else []

/-- The sample of up to 10 signature phrases checked by
`verificar_integridad` (`list(palabras_significativas)[:10]`). -/
def muestraPalabras (texto_original : Str) : List Str :=
  (dedupFirst (frasesSignificativas texto_original)).take 10

/-- `verificar_integridad(texto_original, texto_corregido, tolerancia)`:
length-delta check against the tolerance, then retention of the sampled
signature phrases. -/
def verificar_integridad (texto_original texto_corregido : Str)
    (tolerancia : ℚ) : Bool :=
  let len_original := texto_original.length
  let len_corregido := texto_corregido.length
  if len_original = 0 then false
  else
    let diferencia : ℚ := |(len_original : ℚ) - (len_corregido : ℚ)| / (len_original : ℚ)
    if tolerancia < diferencia then false
    else
      let muestra_palabras := muestraPalabras texto_original
      let palabras_presentes :=
        (muestra_palabras.filter
          (fun frase => isSubstr (lower frase) (lower texto_corregido))).length
      if 0 < muestra_palabras.length ∧
          (palabras_presentes : ℚ) / (muestra_palabras.length : ℚ) < 7/10 then false
      else true

/-! ## Small-unit correction (`transcription_line_corrector.corregir_unidad`)

The external call is modelled by its outcome: `none` when
`cliente.messages.create` raises, `some texto` when it returns `texto`. -/

/-- `corregir_unidad(cliente, unidad)`: short units are returned unchanged
without calling; a raised external call returns the original; a corrected
text whose length differs from the original by more than 20% of the
original's length is discarded. -/
def corregir_unidad (unidad : Str) (llamada : Option Str) : Str :=
  if unidad = [] ∨ unidad.length < 10 then unidad
  else
    match llamada with
    | none => unidad
    | some texto_corregido =>
      if (unidad.length : ℚ) * (1/5) <
          |(texto_corregido.length : ℚ) - (unidad.length : ℚ)| then unidad
      else texto_corregido

/-! ## Subtitle generation (`audio_processor.generate_subtitle_file`) -/

/-- A key idea after alignment, as consumed by the subtitle generator. -/
structure TimedIdea where
  texto : Str
  timestamp_start : ℚ
  timestamp_end : ℚ
deriving DecidableEq

/-- Insertion step of the stable sort `sorted(ideas, key=...)`: the new
element goes before the first element with a key not smaller than its own. -/
def insertarPorInicio (a : TimedIdea) : List TimedIdea → List TimedIdea
  | [] => [a]
  | b :: l =>
    if a.timestamp_start ≤ b.timestamp_start then a :: b :: l
    else b :: insertarPorInicio a l

/-- `sorted(ideas, key=lambda x: x.get('timestamp_start', 0))`: Python's
`sorted` is stable; it is modelled by the (stable) insertion sort. -/
def ordenarIdeas : List TimedIdea → List TimedIdea
  | [] => []
  | a :: l => insertarPorInicio a (ordenarIdeas l)

/-- Python `int(q)` (truncation towards zero). -/
def pyInt (q : ℚ) : ℤ := if 0 ≤ q then ⌊q⌋ else ⌈q⌉

/-- Python float `a % b` for `b > 0` (`a - b * floor(a / b)`). -/
def pyMod (a b : ℚ) : ℚ := a - b * ⌊a / b⌋

/-- Python `f"{n:02d}"` for `n ≥ -9`. -/
def pad2 (n : ℤ) : Str :=
  if 0 ≤ n ∧ n < 10 then '0' :: (toString n).data else (toString n).data

/-- Python `f"{n:03d}"` for `n ≥ 0`. -/
def pad3 (n : ℤ) : Str :=
  if 0 ≤ n ∧ n < 10 then '0' :: '0' :: (toString n).data
  else if 0 ≤ n ∧ n < 100 then '0' :: (toString n).data
  else (toString n).data

/-- The `(hours, minutes, int(seconds), milliseconds)` decomposition shared
by `_format_time_srt` and `_format_time_vtt`. -/
def descomponerTiempo (seconds : ℚ) : ℤ × ℤ × ℤ × ℤ :=
  let hours := pyInt ⌊seconds / 3600⌋
  let minutes := pyInt ⌊pyMod seconds 3600 / 60⌋
  let secs := pyMod seconds 60
  let milliseconds := pyInt ((secs - (pyInt secs : ℚ)) * 1000)
  (hours, minutes, pyInt secs, milliseconds)

/-- `_format_time_srt(seconds)`: `HH:MM:SS,mmm`. -/
def format_time_srt (seconds : ℚ) : Str :=
  let (h, m, s, ms) := descomponerTiempo seconds
  pad2 h ++ ':' :: pad2 m ++ ':' :: pad2 s ++ ',' :: pad3 ms

/-- `_format_time_vtt(seconds)`: `HH:MM:SS.mmm`. -/
def format_time_vtt (seconds : ℚ) : Str :=
  let (h, m, s, ms) := descomponerTiempo seconds
  pad2 h ++ ':' :: pad2 m ++ ':' :: pad2 s ++ '.' :: pad3 ms

/-! ## Text segmentation (`transcription_corrector.dividir_texto`) -/

/-- The header separator marker. -/
def lineaSeparadora : Str := "================".data

/-- Python `"================" in linea`. -/
def tieneSeparador (linea : Str) : Bool := isSubstr lineaSeparadora linea

/-- The first loop of `dividir_texto`: accumulate lines (each with a trailing
newline) until one contains the separator.  Returns
`(encabezado, i, encabezado_encontrado)` with `i` the Python loop variable
after the loop: one past the separator line on a hit, the index of the last
line otherwise. -/
def buscarEncabezado : List Str → ℕ → Str × ℕ × Bool
  | [], idx => ([], idx, false)
  | [linea], idx =>
    (linea ++ ['\n'], if tieneSeparador linea then idx + 1 else idx, tieneSeparador linea)
  | linea :: l :: rest, idx =>
    if tieneSeparador linea then (linea ++ ['\n'], idx + 1, true)
    else
      let (e, j, f) := buscarEncabezado (l :: rest) (idx + 1)
      (linea ++ ['\n'] ++ e, j, f)

/-- The fallback loop of `dividir_texto`: take lines until the accumulated
header reaches 300 characters or 11 lines.  Returns
`(nuevo_encabezado, nuevo_i)`. -/
def encabezadoMinimo : List Str → ℕ → Str → Str × ℕ
  | [], j, acc => (acc, j)
  | linea :: rest, j, acc =>
    let acc2 := acc ++ linea ++ ['\n']
    if 300 ≤ acc2.length ∨ 10 ≤ j then (acc2, j + 1)
    else encabezadoMinimo rest (j + 1) acc2

/-- Header identification of `dividir_texto`: separator scan, then the
minimum-size fallback when the separator is missing or the header is shorter
than 300 characters (the larger candidate wins). -/
def encabezadoIndice (texto : Str) : Str × ℕ :=
  let lineas := splitNl texto
  let (encabezado, i, encontrado) := buscarEncabezado lineas 0
  if ¬ encontrado ∨ encabezado.length < 300 then
    let (nuevo, nuevo_i) := encabezadoMinimo lineas 0 []
    if encabezado.length < nuevo.length then (nuevo, nuevo_i) else (encabezado, i)
  else (encabezado, i)

/-- `resto_texto` of `dividir_texto`: the lines after the header, re-joined. -/
def cuerpo (texto : Str) : Str :=
  joinNl ((splitNl texto).drop (encabezadoIndice texto).2)

/-- The greedy paragraph-accumulation loop of `dividir_texto`: state is
`(texto_actual, current_size, chunks)`. -/
def acumularParrafos (tamano_segmento : ℕ) :
    List Str → Str → ℕ → List Str → List Str
  | [], texto_actual, _, chunks =>
    if texto_actual = [] then chunks else chunks ++ [texto_actual]
  | parrafo :: rest, texto_actual, current_size, chunks =>
    if tamano_segmento < current_size + parrafo.length + 1 ∧ 0 < current_size then
      acumularParrafos tamano_segmento rest parrafo parrafo.length
        (chunks ++ [texto_actual])
    else
      let ta := if texto_actual = [] then parrafo
                else texto_actual ++ '\n' :: parrafo
      acumularParrafos tamano_segmento rest ta (current_size + parrafo.length + 1) chunks

/-- The inner backtracking loop of the forced division: decrement `fin`
while it is above `inicio` and does not sit on a space or newline. -/
def retroceder (resto : Str) (inicio : ℕ) : ℕ → ℕ
  | 0 => 0
  | f + 1 =>
    if inicio < f + 1 ∧ ¬ (resto.getD (f + 1) ' ' = ' ' ∨ resto.getD (f + 1) ' ' = '\n') then
      retroceder resto inicio f
    else f + 1

/-- The forced character division of `dividir_texto`.  The Python `while`
loop advances `inicio` by at least one per iteration when
`tamano_segmento ≥ 1` (and never terminates when it is 0); the fuel
argument, instantiated with `resto.length`, makes the recursion structural
without changing the result for `tamano_segmento ≥ 1`. -/
def divisionForzada (resto : Str) (tamano_segmento : ℕ) : ℕ → ℕ → List Str
  | _, 0 => []
  | inicio, fuel + 1 =>
    if inicio < resto.length then
      let fin := min (inicio + tamano_segmento) resto.length
      let fin2 :=
        if fin < resto.length then
          let fin3 := retroceder resto inicio fin
          if fin3 = inicio then min (inicio + tamano_segmento) resto.length else fin3
        else fin
      ((resto.drop inicio).take (fin2 - inicio)) :: divisionForzada resto tamano_segmento fin2 fuel
    else []

/-- `dividir_texto(texto, tamano_segmento)`: header detection, greedy
paragraph chunking, the forced-division fallback, and the header prefixed
to every chunk. -/
def dividir_texto (texto : Str) (tamano_segmento : ℕ) : List Str :=
  let encabezado := (encabezadoIndice texto).1
  let resto_texto := cuerpo texto
  let chunks := acumularParrafos tamano_segmento (splitNl resto_texto) [] 0 []
  let chunks2 :=
    if chunks.length < 3 ∧ tamano_segmento * 2 < resto_texto.length then
      divisionForzada resto_texto tamano_segmento 0 resto_texto.length
    else chunks
  chunks2.map (fun segmento => encabezado ++ segmento)

/-! ## Chunk reassembly (`transcription_corrector.corregir_segmentos`,
second and third passes)

The first pass of `corregir_segmentos` only produces the list
`segmentos_corregidos` through external calls; the reassembly below takes
that list as input, exactly as the Python code does from its second pass
(lines 293-375) on. -/

/-- The header-extraction loop of the second pass: accumulate lines (each
with a trailing newline) until one contains the separator; the returned
index stays 0 when no separator line exists. -/
def encabezadoSegundaPasada : List Str → ℕ → Str × ℕ
  | [], _ => ([], 0)
  | linea :: rest, idx =>
    if tieneSeparador linea then (linea ++ ['\n'], idx + 1)
    else
      let (e, j) := encabezadoSegundaPasada rest (idx + 1)
      (linea ++ '\n' :: e, j)

/-- Second pass of `corregir_segmentos`: header of the first corrected
segment, with the 5-line fallback when no separator line is present. -/
def extraerEncabezado (primer_segmento : Str) : Str × ℕ :=
  let lineas := splitNl primer_segmento
  let e := encabezadoSegundaPasada lineas 0
  if e.1 = [] ∨ ¬ isSubstr lineaSeparadora e.1 then
    (joinNl (lineas.take (min 5 lineas.length)) ++ ['\n'], min 5 lineas.length)
  else e

/-- The per-segment samples used for common-pattern detection: the first 100
characters of each segment's space-joined content after the header
(segments with no content after the header are skipped). -/
def muestrasDe (indice_fin : ℕ) : List Str → List Str
  | [] => []
  | seg :: rest =>
    let lineas_seg := splitNl seg
    if indice_fin < lineas_seg.length then
      ((joinSp (lineas_seg.drop indice_fin)).take 100) :: muestrasDe indice_fin rest
    else muestrasDe indice_fin rest

/-- Common-pattern detection of `corregir_segmentos`: the longest prefix
(capped at 50 characters) on which all samples agree, kept only when it has
at least 20 characters. -/
def patronComun (segs : List Str) (indice_fin : ℕ) : Str :=
  if 1 < segs.length then
    match muestrasDe indice_fin segs with
    | [] => []
    | m0 :: ms =>
      let limite := min 50 (ms.foldl (fun a m => min a m.length) m0.length)
      let patron_length := ((List.range limite).takeWhile
        (fun i => (m0 :: ms).all (fun m => m.getD i ' ' = m0.getD i ' '))).length
      if 20 ≤ patron_length then m0.take patron_length else []
  else []

/-- `indice_inicio` of the third pass: one past the first separator line,
or 0 when none exists. -/
def indiceInicio (lineas_seg : List Str) : ℕ :=
  match lineas_seg.findIdx? tieneSeparador with
  | some j => j + 1
  | none => 0

/-- The content a later segment contributes in the third pass: lines after
its own header (or after `indice_fin` lines when it has no separator line),
with the common pattern stripped off the front when present. -/
def contenidoSegmento (indice_fin : ℕ) (patron : Str) (seg : Str) : Str :=
  let lineas_seg := splitNl seg
  let ii0 := indiceInicio lineas_seg
  let ii := if ii0 = 0 then indice_fin else ii0
  let contenido := joinNl (lineas_seg.drop ii)
  if patron ≠ [] ∧ patron.isPrefixOf contenido then lstrip (contenido.drop patron.length)
  else contenido

/-- Reassembly of `corregir_segmentos` (second and third passes): header
once, the first segment's content, then every later segment's content with
duplicated header and common pattern removed.  On `[]` the Python code
raises `IndexError` at `segmentos_corregidos[0]`; that case is
unreachable here. -/
def combinar_segmentos : List Str → Str
  | [] => []
  | primer_segmento :: rest =>
    let lineas_primer := splitNl primer_segmento
    let e := extraerEncabezado primer_segmento
    let patron := patronComun (primer_segmento :: rest) e.2
    let base := e.1 ++ joinNl (lineas_primer.drop e.2)
    rest.foldl (fun acc seg =>
      let contenido := contenidoSegmento e.2 patron seg
      if contenido = [] then acc else acc ++ '\n' :: contenido) base

/-- The number of (possibly overlapping) occurrences of `P` as a substring,
counted by starting position. -/
def occCount (P : Str) : Str → ℕ
  | [] => if P.isPrefixOf ([] : Str) then 1 else 0
  | c :: t => (if P.isPrefixOf (c :: t) then 1 else 0) + occCount P t

/-- The transcript used by the C2 counterexample and witness: a 300-character
title line, the separator line, and a two-line body "aaaa\nbbbb". -/
def textoEjemplo : Str :=
  List.replicate 300 'x' ++ '\n' :: "================\naaaa\nbbbb".data

/-- The 100 distinct three-character words used by the C4 witness. -/
def palabrasTest : List Str :=
  (List.range 100).map (fun n => ['w', Char.ofNat (48 + n / 10), Char.ofNat (48 + n % 10)])

/-- Witness input for C4: an idea of 100 distinct words. -/
def ideaCien : Idea := ⟨joinSp palabrasTest, 0⟩

/-- Witness input for C4: a single segment sharing exactly 71 of the idea's
100 words (score 0.71). -/
def transSetentaYUno : Transcription := ⟨[⟨2, 3, joinSp (palabrasTest.take 71)⟩], 50⟩

/-- The shared opening phrase of the C6 example chunks (22 characters). -/
def fraseC6 : Str := "Brothers and sisters, ".data

/-- C6 counterexample chunks: every body begins with the shared phrase, but
the first body also repeats it in the middle. -/
def chunksRepetidos : List Str :=
  ["Sermon title\n================\nBrothers and sisters, one Brothers and sisters, two".data,
   "Sermon title\n================\nBrothers and sisters, three three three".data,
   "Sermon title\n================\nBrothers and sisters, four four four four".data]

/-- C6 witness bodies: single 54-character lines, each beginning with the
shared phrase and containing it exactly once. -/
def cuerposLimpios : List (List Str) :=
  [["Brothers and sisters, aaaaaaaaaaaaaaaaaaaaaaaaaaaaaaaa".data],
   ["Brothers and sisters, bbbbbbbbbbbbbbbbbbbbbbbbbbbbbbbb".data],
   ["Brothers and sisters, cccccccccccccccccccccccccccccccc".data]]

/-- `joinWith` over a cons with a nonempty tail. -/
lemma joinWith_cons (sep : Char) (a : Str) (L : List Str) (h : L ≠ []) :
    joinWith sep (a :: L) = a ++ sep :: joinWith sep L := by
  cases L with
  | nil => exact absurd rfl h
  | cons b t => rfl

/-- `splitNl` never returns the empty list. -/
lemma splitNl_ne_nil (s : Str) : splitNl s ≠ [] := by
  induction s with
  | nil => simp [splitNl]
  | cons c t ih =>
    unfold splitNl
    by_cases hc : c = '\n'
    · simp [hc]
    · rw [if_neg hc]
      rcases h : splitNl t with - | ⟨x, xs⟩
      · simp
      · simp

/-- Re-joining the newline split is the identity. -/
lemma joinNl_splitNl (s : Str) : joinNl (splitNl s) = s := by
  induction s with
  | nil => rfl
  | cons c t ih =>
    unfold splitNl
    by_cases hc : c = '\n'
    · rw [if_pos hc, hc]
      rw [joinNl, joinWith_cons _ _ _ (splitNl_ne_nil t)]
      rw [List.nil_append]
      rw [show joinWith '\n' (splitNl t) = joinNl (splitNl t) from rfl, ih]
    · rw [if_neg hc]
      rcases h : splitNl t with - | ⟨x, xs⟩
      · exact absurd h (splitNl_ne_nil t)
      · rw [h] at ih
        cases xs with
        | nil =>
          simp only [joinNl, joinWith] at ih ⊢
          rw [ih]
        | cons y ys =>
          rw [joinNl, joinWith_cons _ _ _ (by simp)] at ih ⊢
          rw [List.cons_append, ih]

/-- A newline-free text splits into itself. -/
lemma splitNl_no_nl (s : Str) (h : '\n' ∉ s) : splitNl s = [s] := by
  induction s with
  | nil => rfl
  | cons c t ih =>
    have hc : ¬ c = '\n' := by
      intro e
      exact h (by rw [e]; exact List.mem_cons_self _ _)
    have ht : '\n' ∉ t := fun hm => h (List.mem_cons_of_mem c hm)
    unfold splitNl
    rw [if_neg hc, ih ht]

/-- Splitting after a newline-free prefix and an explicit newline. -/
lemma splitNl_append_nl (x s : Str) (h : '\n' ∉ x) :
    splitNl (x ++ '\n' :: s) = x :: splitNl s := by
  induction x with
  | nil => simp [splitNl]
  | cons c t ih =>
    have hc : ¬ c = '\n' := by
      intro e
      exact h (by rw [e]; exact List.mem_cons_self _ _)
    have ht : '\n' ∉ t := fun hm => h (List.mem_cons_of_mem c hm)
    rw [List.cons_append]
    conv_lhs => unfold splitNl
    rw [if_neg hc, ih ht]

/-- `splitNl` inverts `joinNl` on nonempty lists of newline-free lines. -/
lemma splitNl_joinNl (L : List Str) (hne : L ≠ []) (h : ∀ l ∈ L, '\n' ∉ l) :
    splitNl (joinNl L) = L := by
  induction L with
  | nil => exact absurd rfl hne
  | cons a t ih =>
    cases t with
    | nil => exact splitNl_no_nl a (h a (List.mem_cons_self _ _))
    | cons b u =>
      rw [joinNl, joinWith_cons _ _ _ (by simp)]
      rw [splitNl_append_nl a _ (h a (List.mem_cons_self _ _))]
      rw [show joinWith '\n' (b :: u) = joinNl (b :: u) from rfl]
      rw [ih (by simp) (fun l hl => h l (List.mem_cons_of_mem a hl))]

/-- `joinNl` of a cons, as the head followed by newline-prefixed tails. -/
lemma joinNl_flat (p : Str) (rest : List Str) :
    joinNl (p :: rest) = p ++ (rest.map (fun q => '\n' :: q)).flatten := by
  induction rest generalizing p with
  | nil => simp [joinNl, joinWith]
  | cons b u ih =>
    rw [joinNl, joinWith_cons _ _ _ (by simp)]
    rw [show joinWith '\n' (b :: u) = joinNl (b :: u) from rfl, ih b]
    simp

/-- Merging the last two pieces of a `joinNl` with an explicit newline. -/
lemma joinNl_append_pair (A : List Str) (u v : Str) :
    joinNl (A ++ [u, v]) = joinNl (A ++ [u ++ '\n' :: v]) := by
  induction A with
  | nil => simp [joinNl, joinWith]
  | cons a t ih =>
    rw [List.cons_append, List.cons_append]
    unfold joinNl
    rw [joinWith_cons _ _ _ (by simp), joinWith_cons _ _ _ (by simp)]
    rw [show joinWith '\n' (t ++ [u, v]) = joinNl (t ++ [u, v]) from rfl]
    rw [show joinWith '\n' (t ++ [u ++ '\n' :: v]) = joinNl (t ++ [u ++ '\n' :: v]) from rfl]
    rw [ih]

/-- Invariant of the greedy paragraph loop: however the paragraphs are cut
into chunks, re-joining the chunks with newlines restores the pending text
followed by the remaining newline-prefixed paragraphs.  Needs every pending
paragraph nonempty (an empty accumulated `texto_actual` would swallow a
separator). -/
lemma joinNl_acumularParrafos (tam : ℕ) :
    ∀ (parrafos : List Str) (ta : Str) (cs : ℕ) (chunks : List Str),
      [] ∉ parrafos → ta ≠ [] →
      joinNl (acumularParrafos tam parrafos ta cs chunks) =
        joinNl (chunks ++ [ta ++ (parrafos.map (fun p => '\n' :: p)).flatten]) := by
  intro parrafos
  induction parrafos with
  | nil =>
    intro ta cs chunks hp hta
    unfold acumularParrafos
    rw [if_neg hta]
    simp
  | cons p rest ih =>
    intro ta cs chunks hp hta
    have hpne : p ≠ [] := by
      intro e
      exact hp (by rw [← e] at *; exact List.mem_cons_self _ _)
    have hrest : [] ∉ rest := fun hm => hp (List.mem_cons_of_mem p hm)
    unfold acumularParrafos
    by_cases hcond : tam < cs + p.length + 1 ∧ 0 < cs
    · rw [if_pos hcond]
      rw [ih p p.length (chunks ++ [ta]) hrest hpne]
      rw [List.append_assoc]
      rw [show [ta] ++ [p ++ (rest.map (fun q => '\n' :: q)).flatten] =
        [ta, p ++ (rest.map (fun q => '\n' :: q)).flatten] from rfl]
      rw [joinNl_append_pair chunks ta (p ++ (rest.map (fun q => '\n' :: q)).flatten)]
      rfl
    · rw [if_neg hcond, if_neg hta]
      rw [ih (ta ++ '\n' :: p) (cs + p.length + 1) chunks hrest (by simp)]
      rw [List.append_assoc]
      rfl

/-- Starting the greedy paragraph loop on nonempty paragraphs: the chunks
re-join to the paragraphs. -/
lemma joinNl_acumular_inicial (tam : ℕ) (parrafos : List Str)
    (hp : [] ∉ parrafos) :
    joinNl (acumularParrafos tam parrafos [] 0 []) = joinNl parrafos := by
  cases parrafos with
  | nil => rfl
  | cons p rest =>
    have hpne : p ≠ [] := by
      intro e
      exact hp (by rw [← e] at *; exact List.mem_cons_self _ _)
    have hrest : [] ∉ rest := fun hm => hp (List.mem_cons_of_mem p hm)
    unfold acumularParrafos
    rw [if_neg (by simp)]
    rw [if_pos rfl]
    rw [joinNl_acumularParrafos tam rest p (0 + p.length + 1) [] hrest hpne]
    rw [List.nil_append, joinNl_flat p rest]
    simp [joinNl, joinWith]

/-- C2 (amended): when the body's lines are all nonempty and the greedy
paragraph chunking is used (forced character division not triggered),
joining the chunks' content slices with a single newline between
consecutive chunks — not plain concatenation — reconstructs the body
exactly. -/
theorem C2_reensamblado (texto : Str) (tamano_segmento : ℕ)
    (h1 : [] ∉ splitNl (cuerpo texto))
    (h2 : ¬ ((acumularParrafos tamano_segmento (splitNl (cuerpo texto)) [] 0 []).length < 3 ∧
        tamano_segmento * 2 < (cuerpo texto).length)) :
    joinNl ((dividir_texto texto tamano_segmento).map
      (fun segmento => segmento.drop (encabezadoIndice texto).1.length)) =
      cuerpo texto := by
  unfold dividir_texto
  simp only []
  rw [if_neg h2]
  rw [List.map_map]
  rw [show ((fun segmento : Str => segmento.drop (encabezadoIndice texto).1.length) ∘
      (fun segmento => (encabezadoIndice texto).1 ++ segmento)) = id from
    funext (fun c => List.drop_left _ c)]
  rw [List.map_id]
  rw [joinNl_acumular_inicial tamano_segmento (splitNl (cuerpo texto)) h1]
  exact joinNl_splitNl (cuerpo texto)

/-- Counterexample for C2 as stated: on a two-line body "aaaa\nbbbb" split
into the chunks "aaaa" and "bbbb", plain concatenation of the
header-stripped chunks gives "aaaabbbb", losing the newline at the chunk
boundary — it does not reconstruct the body byte for byte. -/
theorem C2_counterexample :
    ((dividir_texto textoEjemplo 5).map
      (fun segmento => segmento.drop (encabezadoIndice textoEjemplo).1.length)).flatten ≠
      cuerpo textoEjemplo := by decide

/-- Witness for C2 (amended): on the same transcript, the newline-join of
the header-stripped chunks does reconstruct the body. -/
theorem C2_reensamblado_witness :
    joinNl ((dividir_texto textoEjemplo 5).map
      (fun segmento => segmento.drop (encabezadoIndice textoEjemplo).1.length)) =
      cuerpo textoEjemplo :=
  C2_reensamblado textoEjemplo 5 (by decide) (by decide)

end SermonGen

namespace SermonGen

/-! ## Theorems -/

/-- C10: with an empty original text, `verificar_integridad` returns `false`
immediately from the explicit zero-length guard, for every corrected text
and every tolerance; the length-ratio division is never reached. -/
theorem C10_original_vacio (texto_corregido : Str) (tolerancia : ℚ) :
    verificar_integridad [] texto_corregido tolerancia = false := rfl

/-- C7: the small-unit corrector keeps the external call's corrected text
exactly when its length differs from the original unit's length by at most
20% of the original length; a larger difference, or a raised external call,
returns the original unit unchanged (and there is no retry inside
`corregir_unidad`). -/
theorem C7_aceptacion_unidad (unidad texto_corregido : Str) :
    corregir_unidad unidad none = unidad ∧
    ((unidad.length : ℚ) * (1/5) <
        |(texto_corregido.length : ℚ) - (unidad.length : ℚ)| →
      corregir_unidad unidad (some texto_corregido) = unidad) ∧
    (10 ≤ unidad.length →
      |(texto_corregido.length : ℚ) - (unidad.length : ℚ)| ≤
        (unidad.length : ℚ) * (1/5) →
      corregir_unidad unidad (some texto_corregido) = texto_corregido) := by
  refine ⟨?_, ?_, ?_⟩
  · unfold corregir_unidad
    split <;> rfl
  · intro hgt
    unfold corregir_unidad
    split
    · rfl
    · show (if _ then unidad else texto_corregido) = unidad
      exact if_pos hgt
  · intro hlen hle
    have hne : ¬ (unidad = [] ∨ unidad.length < 10) := by
      rintro (h | h)
      · rw [h] at hlen; simp at hlen
      · omega
    unfold corregir_unidad
    rw [if_neg hne]
    show (if _ then unidad else texto_corregido) = texto_corregido
    exact if_neg (not_lt.mpr hle)

/-- Witness for C7: a 12-character unit and a 13-character correction
(difference 1 ≤ 2.4) is kept. -/
theorem C7_aceptacion_unidad_witness :
    corregir_unidad "hello world!".data (some "hello, world!".data) =
      "hello, world!".data :=
  (C7_aceptacion_unidad "hello world!".data "hello, world!".data).2.2
    (by decide) (by norm_num)

/-- C3: when every sampled signature phrase of the original survives in the
corrected text, `verificar_integridad` succeeds exactly when the relative
length difference does not exceed the tolerance; in particular it fails
exactly when `|len(corrected) - len(original)| / len(original) > tolerance`. -/
theorem C3_limite_tolerancia (texto_original texto_corregido : Str)
    (tolerancia : ℚ) (ho : texto_original ≠ [])
    (hret : ∀ frase ∈ muestraPalabras texto_original,
      isSubstr (lower frase) (lower texto_corregido) = true) :
    verificar_integridad texto_original texto_corregido tolerancia = true ↔
      |(texto_original.length : ℚ) - (texto_corregido.length : ℚ)| /
          (texto_original.length : ℚ) ≤ tolerancia := by
  have hlen : texto_original.length ≠ 0 := by
    simpa [List.length_eq_zero] using ho
  unfold verificar_integridad
  rw [if_neg hlen]
  by_cases hdif : tolerancia <
      |(texto_original.length : ℚ) - (texto_corregido.length : ℚ)| /
        (texto_original.length : ℚ)
  · rw [if_pos hdif]
    simp [hdif, not_le.mpr hdif]
  · rw [if_neg hdif]
    have hfilter : (muestraPalabras texto_original).filter
        (fun frase => isSubstr (lower frase) (lower texto_corregido)) =
        muestraPalabras texto_original := List.filter_eq_self.mpr hret
    simp only [hfilter]
    by_cases hmu : 0 < (muestraPalabras texto_original).length
    · have hdiv : ((muestraPalabras texto_original).length : ℚ) /
          ((muestraPalabras texto_original).length : ℚ) = 1 := by
        exact div_self (Nat.cast_ne_zero.mpr hmu.ne')
      rw [if_neg]
      · simpa using not_lt.mp hdif
      · rw [hdiv]
        rintro ⟨-, hcontra⟩
        norm_num at hcontra
    · rw [if_neg]
      · simpa using not_lt.mp hdif
      · rintro ⟨hcontra, -⟩
        exact hmu hcontra

/-- Witness for C3: a 100-character original (no signature phrases, so all
sampled phrases are vacuously retained) fails verification against a
121-character correction (difference 21% > 20%) and passes against a
119-character one (19% ≤ 20%). -/
theorem C3_limite_tolerancia_witness :
    verificar_integridad (List.replicate 100 'a') (List.replicate 121 'b')
        (1/5) = false ∧
    verificar_integridad (List.replicate 100 'a') (List.replicate 119 'b')
        (1/5) = true := by
  constructor
  · have h := C3_limite_tolerancia (List.replicate 100 'a')
      (List.replicate 121 'b') (1/5) (by decide) (by decide)
    rw [Bool.eq_false_iff]
    intro htrue
    have hle := h.mp htrue
    rw [List.length_replicate, List.length_replicate] at hle
    norm_num at hle
  · have h := C3_limite_tolerancia (List.replicate 100 'a')
      (List.replicate 119 'b') (1/5) (by decide) (by decide)
    apply h.mpr
    rw [List.length_replicate, List.length_replicate]
    norm_num

/-- C5: an idea with nonempty text that is contained in no segment and whose
best fuzzy score does not exceed 0.7 always gets the positional fallback:
start at `posicion_relativa * duration`, a 10-second span clamped to the
duration, the "No encontrado" marker, and confidence 0 — the alignment is a
total function and returns a value for every such idea. -/
theorem C5_respaldo_posicional (idea : Idea) (t : Transcription)
    (h1 : strip idea.texto ≠ [])
    (h2 : ∀ seg ∈ t.segments,
      isSubstr (strip idea.texto) (strip seg.text) = false)
    (h3 : (buscarCoincidencia (strip idea.texto) t.segments none 0).2 ≤ 7/10) :
    alignIdea idea t = some
      { timestamp_start :=
          idea.posicion_relativa * (if t.duration = 0 then 2000 else t.duration)
        timestamp_end :=
          min (if t.duration = 0 then 2000 else t.duration)
            (idea.posicion_relativa *
              (if t.duration = 0 then 2000 else t.duration) + 10)
        segment_text := "No encontrado".data
        match_confidence := 0 } := by
  have hpos : some (posicional idea t) = some
      { timestamp_start :=
          idea.posicion_relativa * (if t.duration = 0 then 2000 else t.duration)
        timestamp_end :=
          min (if t.duration = 0 then 2000 else t.duration)
            (idea.posicion_relativa *
              (if t.duration = 0 then 2000 else t.duration) + 10)
        segment_text := "No encontrado".data
        match_confidence := 0 } := rfl
  unfold alignIdea
  rw [if_neg h1]
  rcases hb : buscarCoincidencia (strip idea.texto) t.segments none 0 with ⟨m, punt⟩
  rw [hb] at h3
  cases m with
  | none => exact hpos
  | some seg =>
    show (if 7/10 < punt then _ else some (posicional idea t)) = _
    rw [if_neg (not_lt.mpr h3)]
    exact hpos

/-- Witness for C5: the idea "zz qq" shares nothing with the single segment
"hello world", so it is placed positionally at half of the 100-second
duration. -/
theorem C5_respaldo_posicional_witness :
    alignIdea ⟨"zz qq".data, 1/2⟩ ⟨[⟨0, 4, "hello world".data⟩], 100⟩ =
      some { timestamp_start := 50, timestamp_end := 60,
             segment_text := "No encontrado".data, match_confidence := 0 } := by
  have h := C5_respaldo_posicional ⟨"zz qq".data, 1/2⟩
    ⟨[⟨0, 4, "hello world".data⟩], 100⟩ (by decide) (by decide)
    (by with_unfolding_all decide)
  exact h.trans (by with_unfolding_all decide)

/-- C1 (code evaluation at the failing input): the idea text
"my shepherd and my guide" is literally contained in the only segment's text
"the Lord is my shepherd and my guide", yet `add_timestamps_to_ideas` does
not select that segment with confidence 1.0: the containment `break` leaves
`mejor_puntuacion` at 0, the acceptance gate `mejor_puntuacion > 0.7` fails,
and the idea receives the positional fallback with confidence 0. -/
theorem C1_confianza_contencion :
    alignIdea ⟨"my shepherd and my guide".data, 0⟩
        ⟨[⟨5, 9, "the Lord is my shepherd and my guide".data⟩], 100⟩ =
      some { timestamp_start := 0, timestamp_end := 10,
             segment_text := "No encontrado".data, match_confidence := 0 } ∧
    (alignIdea ⟨"my shepherd and my guide".data, 0⟩
        ⟨[⟨5, 9, "the Lord is my shepherd and my guide".data⟩], 100⟩).map
      Alignment.match_confidence ≠ some 1 := by
  constructor
  · with_unfolding_all decide
  · with_unfolding_all decide

/-- Elements of the insertion step are the inserted element and the old
elements. -/
lemma mem_insertarPorInicio (a x : TimedIdea) (l : List TimedIdea) :
    x ∈ insertarPorInicio a l ↔ x = a ∨ x ∈ l := by
  induction l with
  | nil => simp [insertarPorInicio]
  | cons b t ih =>
    unfold insertarPorInicio
    split
    · simp only [List.mem_cons]
    · simp only [List.mem_cons, ih]
      tauto

/-- The insertion step preserves sortedness by `timestamp_start`. -/
lemma sorted_insertarPorInicio (a : TimedIdea) (l : List TimedIdea)
    (h : l.Sorted (fun x y => x.timestamp_start ≤ y.timestamp_start)) :
    (insertarPorInicio a l).Sorted
      (fun x y => x.timestamp_start ≤ y.timestamp_start) := by
  induction l with
  | nil => simp [insertarPorInicio]
  | cons b t ih =>
    rw [List.sorted_cons] at h
    obtain ⟨hb, ht⟩ := h
    unfold insertarPorInicio
    split
    · rename_i hab
      rw [List.sorted_cons]
      refine ⟨?_, ?_⟩
      · intro x hx
        rcases List.mem_cons.mp hx with rfl | hx
        · exact hab
        · exact hab.trans (hb x hx)
      · rw [List.sorted_cons]
        exact ⟨hb, ht⟩
    · rename_i hab
      rw [List.sorted_cons]
      refine ⟨?_, ih ht⟩
      intro x hx
      rcases (mem_insertarPorInicio a x t).mp hx with rfl | hx
      · exact le_of_not_le hab
      · exact hb x hx

/-- Filtering by an exact key commutes with the insertion step: elements
passed over by the insertion have strictly smaller keys, so they never share
the inserted element's key. -/
lemma filter_insertarPorInicio (a : TimedIdea) (l : List TimedIdea) (k : ℚ) :
    (insertarPorInicio a l).filter (fun x => decide (x.timestamp_start = k)) =
      if a.timestamp_start = k then
        a :: l.filter (fun x => decide (x.timestamp_start = k))
      else l.filter (fun x => decide (x.timestamp_start = k)) := by
  induction l with
  | nil =>
    unfold insertarPorInicio
    by_cases hak : a.timestamp_start = k <;> simp [hak]
  | cons b t ih =>
    unfold insertarPorInicio
    split
    · rename_i hab
      by_cases hak : a.timestamp_start = k <;> simp [List.filter_cons, hak]
    · rename_i hab
      have hba : b.timestamp_start < a.timestamp_start := not_le.mp hab
      by_cases hak : a.timestamp_start = k
      · have hbk : b.timestamp_start ≠ k := by
          rw [← hak]; exact hba.ne
        simp [List.filter_cons, hbk, ih, hak]
      · simp [List.filter_cons, ih, hak]

/-- C8: the subtitle generator's sort `sorted(ideas, key=timestamp_start)`
emits ideas in non-decreasing `timestamp_start` order, is stable (for every
key value, the sublist of ideas carrying that key is unchanged), and on
start times [12, 3, 7.5] supplied in that order emits 3, 7.5, 12. -/
theorem C8_orden_subtitulos :
    (∀ l : List TimedIdea,
      (ordenarIdeas l).Sorted (fun a b => a.timestamp_start ≤ b.timestamp_start)) ∧
    (∀ (l : List TimedIdea) (k : ℚ),
      (ordenarIdeas l).filter (fun x => decide (x.timestamp_start = k)) =
        l.filter (fun x => decide (x.timestamp_start = k))) ∧
    ordenarIdeas [⟨"a".data, 12, 13⟩, ⟨"b".data, 3, 4⟩, ⟨"c".data, 15/2, 17/2⟩] =
      [⟨"b".data, 3, 4⟩, ⟨"c".data, 15/2, 17/2⟩, ⟨"a".data, 12, 13⟩] := by
  refine ⟨?_, ?_, by with_unfolding_all decide⟩
  · intro l
    induction l with
    | nil => simp [ordenarIdeas]
    | cons a t ih => exact sorted_insertarPorInicio a (ordenarIdeas t) ih
  · intro l k
    induction l with
    | nil => rfl
    | cons a t ih =>
      show (insertarPorInicio a (ordenarIdeas t)).filter _ = _
      rw [filter_insertarPorInicio a (ordenarIdeas t) k, List.filter_cons]
      by_cases hak : a.timestamp_start = k <;> simp [hak, ih]

/-- `pyInt` is the identity on integer values. -/
lemma pyInt_intCast (z : ℤ) : pyInt (z : ℚ) = z := by
  unfold pyInt
  split <;> simp

/-- `pyInt` is the floor on non-negative values. -/
lemma pyInt_ofNonneg (q : ℚ) (h : 0 ≤ q) : pyInt q = ⌊q⌋ := if_pos h

/-- Floor of a division by a positive natural, characterised by bounds. -/
lemma floor_div_nat (q : ℚ) (d n : ℕ) (hd : 0 < d)
    (h1 : (n : ℚ) * (d : ℚ) ≤ q) (h2 : q < (n : ℚ) * (d : ℚ) + (d : ℚ)) :
    ⌊q / (d : ℚ)⌋ = (n : ℤ) := by
  have hd' : (0 : ℚ) < (d : ℚ) := by exact_mod_cast hd
  rw [Int.floor_eq_iff]
  constructor
  · rw [le_div_iff₀ hd']
    push_cast
    linarith
  · rw [div_lt_iff₀ hd']
    push_cast
    nlinarith

/-- The time decomposition of `_format_time_srt`/`_format_time_vtt` on an
exact `h:m:s.ms` input. -/
lemma descomponerTiempo_spec (h m s ms : ℕ) (hm : m < 60) (hs : s < 60)
    (hms : ms < 1000) :
    descomponerTiempo ((3600 * h + 60 * m + s : ℕ) + (ms : ℚ) / 1000) =
      ((h : ℤ), (m : ℤ), (s : ℤ), (ms : ℤ)) := by
  set q : ℚ := (3600 * h + 60 * m + s : ℕ) + (ms : ℚ) / 1000 with hq
  have hm' : (m : ℚ) ≤ 59 := by exact_mod_cast Nat.lt_succ_iff.mp hm
  have hs' : (s : ℚ) ≤ 59 := by exact_mod_cast Nat.lt_succ_iff.mp hs
  have hms0 : (0 : ℚ) ≤ (ms : ℚ) / 1000 := by positivity
  have hms1 : (ms : ℚ) / 1000 < 1 := by
    rw [div_lt_one (by norm_num)]
    exact_mod_cast hms
  have hqval : q = 3600 * (h : ℚ) + 60 * (m : ℚ) + (s : ℚ) + (ms : ℚ) / 1000 := by
    rw [hq]
    push_cast
    ring
  have hfloor3600 : ⌊q / (3600 : ℚ)⌋ = (h : ℤ) := by
    have := floor_div_nat q 3600 h (by norm_num)
      (by rw [hqval]; push_cast; linarith)
      (by rw [hqval]; push_cast; linarith)
    exact_mod_cast this
  have hmod3600 : pyMod q 3600 = 60 * (m : ℚ) + (s : ℚ) + (ms : ℚ) / 1000 := by
    unfold pyMod
    rw [hfloor3600, hqval]
    push_cast
    ring
  have hfloor60 : ⌊pyMod q 3600 / (60 : ℚ)⌋ = (m : ℤ) := by
    have := floor_div_nat (pyMod q 3600) 60 m (by norm_num)
      (by rw [hmod3600]; linarith) (by rw [hmod3600]; linarith)
    exact_mod_cast this
  have hfloorq60 : ⌊q / (60 : ℚ)⌋ = ((60 * h + m : ℕ) : ℤ) := by
    have := floor_div_nat q 60 (60 * h + m) (by norm_num)
      (by rw [hqval]; push_cast; linarith) (by rw [hqval]; push_cast; linarith)
    exact_mod_cast this
  have hmod60 : pyMod q 60 = (s : ℚ) + (ms : ℚ) / 1000 := by
    unfold pyMod
    rw [hfloorq60, hqval]
    push_cast
    ring
  have hsecsInt : pyInt (pyMod q 60) = (s : ℤ) := by
    rw [pyInt_ofNonneg _ (by rw [hmod60]; positivity), hmod60]
    rw [Int.floor_eq_iff]
    push_cast
    constructor <;> linarith
  have hmsInt : pyInt ((pyMod q 60 - ((s : ℤ) : ℚ)) * 1000) = (ms : ℤ) := by
    rw [hmod60]
    have : ((s : ℚ) + (ms : ℚ) / 1000 - ((s : ℤ) : ℚ)) * 1000 = (ms : ℚ) := by
      push_cast
      ring
    rw [this]
    rw [pyInt_ofNonneg _ (by positivity)]
    exact_mod_cast Int.floor_natCast ms
  unfold descomponerTiempo
  simp only [hfloor3600, hfloor60, hsecsInt, hmsInt, pyInt_intCast]

/-- C9: the subtitle time formatters compute hours by floor division by
3600, minutes by floor division of the remainder by 60, integer seconds,
and milliseconds from the fractional remainder, so an exact `h:m:s.ms`
duration (covering durations of one hour or more and sub-second precision)
formats as zero-padded `HH:MM:SS,mmm` in SRT and `HH:MM:SS.mmm` in VTT. -/
theorem C9_formato_tiempo (h m s ms : ℕ) (hm : m < 60) (hs : s < 60)
    (hms : ms < 1000) :
    format_time_srt ((3600 * h + 60 * m + s : ℕ) + (ms : ℚ) / 1000) =
      pad2 (h : ℤ) ++ ':' :: pad2 (m : ℤ) ++ ':' :: pad2 (s : ℤ) ++
        ',' :: pad3 (ms : ℤ) ∧
    format_time_vtt ((3600 * h + 60 * m + s : ℕ) + (ms : ℚ) / 1000) =
      pad2 (h : ℤ) ++ ':' :: pad2 (m : ℤ) ++ ':' :: pad2 (s : ℤ) ++
        '.' :: pad3 (ms : ℤ) := by
  constructor
  · unfold format_time_srt
    rw [descomponerTiempo_spec h m s ms hm hs hms]
  · unfold format_time_vtt
    rw [descomponerTiempo_spec h m s ms hm hs hms]

/-- Witness for C9: 3725.250 seconds is 1 h, 2 min, 5 s, 250 ms and formats
to "01:02:05,250" (SRT) and "01:02:05.250" (VTT). -/
theorem C9_formato_tiempo_witness :
    format_time_srt (14901 / 4) = "01:02:05,250".data ∧
    format_time_vtt (14901 / 4) = "01:02:05.250".data := by
  have hq : ((3600 * 1 + 60 * 2 + 5 : ℕ) + ((250 : ℕ) : ℚ) / 1000) = 14901 / 4 := by
    norm_num
  have h9 := C9_formato_tiempo 1 2 5 250 (by norm_num) (by norm_num) (by norm_num)
  rw [hq] at h9
  exact ⟨h9.1.trans (by with_unfolding_all decide),
    h9.2.trans (by with_unfolding_all decide)⟩

/-- When no segment contains the idea text, the scan's final score is the
maximum of the per-segment similarity scores (empty-stripped segments
skipped), starting from the incoming score. -/
lemma buscar_puntuacion (texto_idea : Str) :
    ∀ (segs : List Segment),
      (∀ seg ∈ segs, isSubstr texto_idea (strip seg.text) = false) →
      ∀ (m : Option Segment) (p : ℚ),
        (buscarCoincidencia texto_idea segs m p).2 =
          segs.foldl (fun a s => if strip s.text = [] then a
            else max a (puntuacionDe texto_idea (strip s.text))) p := by
  intro segs
  induction segs with
  | nil => intro _ m p; rfl
  | cons seg rest ih =>
    intro hnc m p
    have hrest := fun s hs => hnc s (List.mem_cons_of_mem seg hs)
    rw [List.foldl_cons]
    unfold buscarCoincidencia
    by_cases hemp : strip seg.text = []
    · rw [if_pos hemp]
      rw [ih hrest m p, if_pos hemp]
    · rw [if_neg hemp, if_neg (by simp [hnc seg (List.mem_cons_self seg rest)])]
      by_cases hlt : p < puntuacionDe texto_idea (strip seg.text)
      · rw [if_pos hlt, ih hrest (some seg) _, if_neg hemp,
          max_eq_right hlt.le]
      · rw [if_neg hlt, ih hrest m p, if_neg hemp,
          max_eq_left (not_lt.mp hlt)]

/-- When no segment contains the idea text, the scan either leaves its state
untouched or ends on some scanned segment whose similarity score is the
final score. -/
lemma buscar_mejor (texto_idea : Str) :
    ∀ (segs : List Segment),
      (∀ seg ∈ segs, isSubstr texto_idea (strip seg.text) = false) →
      ∀ (m : Option Segment) (p : ℚ),
        ((buscarCoincidencia texto_idea segs m p).1 = m ∧
          (buscarCoincidencia texto_idea segs m p).2 = p) ∨
        ∃ seg ∈ segs, strip seg.text ≠ [] ∧
          (buscarCoincidencia texto_idea segs m p).1 = some seg ∧
          (buscarCoincidencia texto_idea segs m p).2 =
            puntuacionDe texto_idea (strip seg.text) := by
  intro segs
  induction segs with
  | nil => intro _ m p; exact Or.inl ⟨rfl, rfl⟩
  | cons seg rest ih =>
    intro hnc m p
    have hrest := fun s hs => hnc s (List.mem_cons_of_mem seg hs)
    unfold buscarCoincidencia
    by_cases hemp : strip seg.text = []
    · rw [if_pos hemp]
      rcases ih hrest m p with h | ⟨s, hs, h⟩
      · exact Or.inl h
      · exact Or.inr ⟨s, List.mem_cons_of_mem seg hs, h⟩
    · rw [if_neg hemp, if_neg (by simp [hnc seg (List.mem_cons_self seg rest)])]
      by_cases hlt : p < puntuacionDe texto_idea (strip seg.text)
      · rw [if_pos hlt]
        rcases ih hrest (some seg) (puntuacionDe texto_idea (strip seg.text))
          with ⟨ha, hb⟩ | ⟨s, hs, h⟩
        · exact Or.inr ⟨seg, List.mem_cons_self seg rest, hemp, ha, hb⟩
        · exact Or.inr ⟨s, List.mem_cons_of_mem seg hs, h⟩
      · rw [if_neg hlt]
        rcases ih hrest m p with h | ⟨s, hs, h⟩
        · exact Or.inl h
        · exact Or.inr ⟨s, List.mem_cons_of_mem seg hs, h⟩

/-- C4: when the idea text is contained in no segment, the final score is
the maximum per-segment similarity score (shared distinct lowercased words
over `max 1 (idea word count)`); the alignment records a segment match
exactly when that score is strictly greater than 0.7 (the matched segment
being one achieving the score), and at 0.7 or below the positional fallback
is used instead. -/
theorem C4_umbral_difuso (idea : Idea) (t : Transcription)
    (h1 : strip idea.texto ≠ [])
    (h2 : ∀ seg ∈ t.segments,
      isSubstr (strip idea.texto) (strip seg.text) = false) :
    (buscarCoincidencia (strip idea.texto) t.segments none 0).2 =
      t.segments.foldl (fun a s => if strip s.text = [] then a
        else max a (puntuacionDe (strip idea.texto) (strip s.text))) 0 ∧
    (7/10 < (buscarCoincidencia (strip idea.texto) t.segments none 0).2 →
      ∃ seg ∈ t.segments,
        puntuacionDe (strip idea.texto) (strip seg.text) =
          (buscarCoincidencia (strip idea.texto) t.segments none 0).2 ∧
        alignIdea idea t = some
          { timestamp_start := seg.start
            timestamp_end := seg.stop
            segment_text := seg.text
            match_confidence :=
              (buscarCoincidencia (strip idea.texto) t.segments none 0).2 }) ∧
    ((buscarCoincidencia (strip idea.texto) t.segments none 0).2 ≤ 7/10 →
      alignIdea idea t = some (posicional idea t)) := by
  refine ⟨buscar_puntuacion (strip idea.texto) t.segments h2 none 0, ?_, ?_⟩
  · intro hgt
    rcases buscar_mejor (strip idea.texto) t.segments h2 none 0
      with ⟨-, hp⟩ | ⟨seg, hmem, -, hm, hp⟩
    · rw [hp] at hgt
      norm_num at hgt
    · refine ⟨seg, hmem, hp.symm, ?_⟩
      have hpair : buscarCoincidencia (strip idea.texto) t.segments none 0 =
          (some seg, (buscarCoincidencia (strip idea.texto) t.segments none 0).2) := by
        rw [← hm]
      unfold alignIdea
      rw [if_neg h1, hpair]
      show (if 7/10 < _ then _ else _) = _
      rw [if_pos hgt]
  · intro hle
    unfold alignIdea
    rw [if_neg h1]
    rcases hb : buscarCoincidencia (strip idea.texto) t.segments none 0 with ⟨m, punt⟩
    rw [hb] at hle
    cases m with
    | none => rfl
    | some seg =>
      show (if 7/10 < punt then _ else some (posicional idea t)) = _
      rw [if_neg (not_lt.mpr hle)]

set_option maxRecDepth 100000 in
/-- Witness for C4: an idea sharing exactly 7 of its 10 words with the only
segment (score 0.70) is not matched and falls back positionally, while an
idea sharing 71 of its 100 words (score 0.71) is matched with confidence
0.71. -/
theorem C4_umbral_difuso_witness :
    alignIdea ⟨"a b c d e f g h i j".data, 0⟩ ⟨[⟨2, 3, "a b c d e f g".data⟩], 50⟩ =
      some (posicional ⟨"a b c d e f g h i j".data, 0⟩
        ⟨[⟨2, 3, "a b c d e f g".data⟩], 50⟩) ∧
    (∃ seg ∈ transSetentaYUno.segments,
      puntuacionDe (strip ideaCien.texto) (strip seg.text) =
        (buscarCoincidencia (strip ideaCien.texto) transSetentaYUno.segments none 0).2 ∧
      alignIdea ideaCien transSetentaYUno = some
        { timestamp_start := seg.start
          timestamp_end := seg.stop
          segment_text := seg.text
          match_confidence :=
            (buscarCoincidencia (strip ideaCien.texto)
              transSetentaYUno.segments none 0).2 }) := by
  constructor
  · exact (C4_umbral_difuso ⟨"a b c d e f g h i j".data, 0⟩
      ⟨[⟨2, 3, "a b c d e f g".data⟩], 50⟩ (by decide) (by decide)).2.2
      (by with_unfolding_all decide)
  · exact (C4_umbral_difuso ideaCien transSetentaYUno
      (by with_unfolding_all decide) (by with_unfolding_all decide)).2.1
      (by with_unfolding_all decide)

/-- `isSubstr` decides the infix relation. -/
lemma isSubstr_iff_infijo (n : Str) : ∀ (h : Str), isSubstr n h = true ↔ n <:+: h := by
  intro h
  induction h with
  | nil => simp [isSubstr]
  | cons c t ih =>
    simp only [isSubstr, Bool.or_eq_true, List.isPrefixOf_iff_prefix, ih,
      List.infix_cons_iff]

/-- A newline-free pattern is a prefix of `A ++ '\n' :: B` exactly when it
is a prefix of `A`. -/
lemma isPrefixOf_append_nl (P : Str) (hPnl : '\n' ∉ P) :
    ∀ (A B : Str), P.isPrefixOf (A ++ '\n' :: B) = P.isPrefixOf A := by
  induction P with
  | nil => intro A B; simp [List.isPrefixOf]
  | cons c P' ih =>
    intro A B
    have hc : ¬ c = '\n' := by
      intro e
      exact hPnl (by rw [e]; exact List.mem_cons_self _ _)
    have hP' : '\n' ∉ P' := fun hm => hPnl (List.mem_cons_of_mem c hm)
    cases A with
    | nil =>
      simp only [List.nil_append, List.isPrefixOf]
      have : (c == '\n') = false := by
        simp [hc]
      simp [this]
    | cons a A' =>
      show (c == a && P'.isPrefixOf (A' ++ '\n' :: B)) = (c == a && P'.isPrefixOf A')
      rw [ih hP' A' B]

/-- Occurrence counting distributes over a newline separator for a nonempty
newline-free pattern. -/
lemma occCount_append_nl (P : Str) (hP : P ≠ []) (hPnl : '\n' ∉ P) :
    ∀ (A B : Str), occCount P (A ++ '\n' :: B) = occCount P A + occCount P B := by
  intro A
  induction A with
  | nil =>
    intro B
    rw [List.nil_append]
    show (if P.isPrefixOf ('\n' :: B) then 1 else 0) + occCount P B =
      occCount P [] + occCount P B
    have h1 : P.isPrefixOf ('\n' :: B) = P.isPrefixOf [] :=
      isPrefixOf_append_nl P hPnl [] B
    have h2 : P.isPrefixOf ([] : Str) = false := by
      cases P with
      | nil => exact absurd rfl hP
      | cons c P' => rfl
    rw [h1, h2]
    show (0 : ℕ) + occCount P B = occCount P [] + occCount P B
    rw [show occCount P [] = if P.isPrefixOf ([] : Str) then 1 else 0 from rfl, h2]
    simp
  | cons a A' ih =>
    intro B
    rw [List.cons_append]
    show (if P.isPrefixOf (a :: (A' ++ '\n' :: B)) then 1 else 0) +
        occCount P (A' ++ '\n' :: B) =
      ((if P.isPrefixOf (a :: A') then 1 else 0) + occCount P A') + occCount P B
    rw [ih B]
    rw [show (a : Char) :: (A' ++ '\n' :: B) = (a :: A') ++ '\n' :: B from rfl,
      isPrefixOf_append_nl P hPnl (a :: A') B]
    omega

/-- Occurrence counting is monotone with respect to suffixes. -/
lemma occCount_suffix_le (P : Str) : ∀ (l s : Str), s <:+ l →
    occCount P s ≤ occCount P l := by
  intro l
  induction l with
  | nil =>
    intro s hs
    rw [List.suffix_nil.mp hs]
  | cons c t ih =>
    intro s hs
    rcases List.suffix_cons_iff.mp hs with rfl | hs
    · exact le_refl _
    · calc occCount P s ≤ occCount P t := ih s hs
        _ ≤ occCount P (c :: t) := by
            show occCount P t ≤ (if P.isPrefixOf (c :: t) then 1 else 0) + occCount P t
            omega

/-- A pattern occurring exactly once, at the very front, does not occur in
any proper suffix. -/
lemma occCount_drop_eq_zero (P l : Str) (hP : P ≠ [])
    (h1 : occCount P l = 1) (hpre : P.isPrefixOf l = true) (n : ℕ) (hn : 1 ≤ n) :
    occCount P (l.drop n) = 0 := by
  cases l with
  | nil =>
    cases P with
    | nil => exact absurd rfl hP
    | cons c P' => exact absurd hpre (by simp [List.isPrefixOf])
  | cons c t =>
    have hocc : (if P.isPrefixOf (c :: t) then 1 else 0) + occCount P t = 1 := h1
    rw [hpre] at hocc
    have ht : occCount P t = 0 := by
      simp at hocc
      omega
    obtain ⟨m, rfl⟩ : ∃ m, n = m + 1 := ⟨n - 1, by omega⟩
    show occCount P (t.drop m) = 0
    have := occCount_suffix_le P t (t.drop m) (List.drop_suffix m t)
    omega

/-- `joinWith` of a cons, as the head followed by separator-prefixed tails. -/
lemma joinWith_flat (sep : Char) (p : Str) (rest : List Str) :
    joinWith sep (p :: rest) = p ++ (rest.map (fun q => sep :: q)).flatten := by
  induction rest generalizing p with
  | nil => simp [joinWith]
  | cons b u ih =>
    rw [joinWith_cons _ _ _ (by simp), ih b]
    simp

/-- Every member of a line list is an infix of its join. -/
lemma infix_joinWith_of_mem (sep : Char) (l : Str) :
    ∀ (L : List Str), l ∈ L → l <:+: joinWith sep L := by
  intro L
  induction L with
  | nil => intro h; simp at h
  | cons a t ih =>
    intro h
    rcases List.mem_cons.mp h with rfl | h
    · cases t with
      | nil => exact List.infix_rfl
      | cons b u =>
        rw [joinWith_cons _ _ _ (by simp)]
        exact (List.prefix_append l _).isInfix
    · cases t with
      | nil => simp at h
      | cons b u =>
        rw [joinWith_cons _ _ _ (by simp)]
        have h1 : l <:+: joinWith sep (b :: u) := ih h
        have h2 : joinWith sep (b :: u) <:+ a ++ sep :: joinWith sep (b :: u) := by
          refine ⟨a ++ [sep], ?_⟩
          simp
        exact h1.trans h2.isInfix

/-- A newline-free prefix of a joined line list is a prefix of the first
line. -/
lemma prefix_head_of_prefix_joinNl (P l₀ : Str) (rest : List Str)
    (hPnl : '\n' ∉ P) (h : P <+: joinNl (l₀ :: rest)) : P <+: l₀ := by
  cases rest with
  | nil => exact h
  | cons b u =>
    rw [joinNl, joinWith_cons _ _ _ (by simp)] at h
    have h1 : P.isPrefixOf (l₀ ++ '\n' :: joinWith '\n' (b :: u)) = true :=
      List.isPrefixOf_iff_prefix.mpr h
    rw [isPrefixOf_append_nl P hPnl l₀ (joinWith '\n' (b :: u))] at h1
    exact List.isPrefixOf_iff_prefix.mp h1

/-- If the first `k` elements of a list satisfy `p`, the `takeWhile`
segment has at least `min k length` elements. -/
lemma len_takeWhile_ge {α : Type} (p : α → Bool) :
    ∀ (l : List α) (k : ℕ), (∀ x ∈ l.take k, p x = true) →
      min k l.length ≤ (l.takeWhile p).length := by
  intro l
  induction l with
  | nil => intro k _; simp
  | cons a t ih =>
    intro k hk
    cases k with
    | zero => simp
    | succ k2 =>
      have hpa : p a = true := hk a (by simp)
      rw [List.takeWhile_cons, if_pos hpa]
      have hrec := ih k2 (fun x hx => hk x (by simp [hx]))
      simp only [List.length_cons]
      omega

/-- A fold of `min` over lengths stays at least `k` when the seed and every
length do. -/
lemma foldl_min_ge (k : ℕ) :
    ∀ (ms : List Str) (init : ℕ), k ≤ init → (∀ m ∈ ms, k ≤ m.length) →
      k ≤ ms.foldl (fun a m => min a m.length) init := by
  intro ms
  induction ms with
  | nil => intro init h _; exact h
  | cons m rest ih =>
    intro init h hall
    rw [List.foldl_cons]
    exact ih _ (le_min h (hall m (List.mem_cons_self _ _)))
      (fun x hx => hall x (List.mem_cons_of_mem m hx))

/-- The second-pass header loop on a header whose separator line comes
first among separator-bearing lines. -/
lemma encabezadoSegundaPasada_spec (hsep : Str) (hsepMark : tieneSeparador hsep = true) :
    ∀ (hpre : List Str), (∀ l ∈ hpre, tieneSeparador l = false) →
      ∀ (tailL : List Str) (idx : ℕ),
        encabezadoSegundaPasada (hpre ++ hsep :: tailL) idx =
          (joinNl (hpre ++ [hsep]) ++ ['\n'], idx + hpre.length + 1) := by
  intro hpre
  induction hpre with
  | nil =>
    intro _ tailL idx
    rw [List.nil_append]
    unfold encabezadoSegundaPasada
    rw [if_pos hsepMark]
    simp [joinNl, joinWith]
  | cons l hpre2 ih =>
    intro hNoSep tailL idx
    have hl : tieneSeparador l = false := hNoSep l (List.mem_cons_self _ _)
    have hrest : ∀ x ∈ hpre2, tieneSeparador x = false :=
      fun x hx => hNoSep x (List.mem_cons_of_mem l hx)
    rw [List.cons_append]
    unfold encabezadoSegundaPasada
    rw [if_neg (by simp [hl])]
    rw [ih hrest tailL (idx + 1)]
    have hjoin : joinNl ((l :: hpre2) ++ [hsep]) =
        l ++ '\n' :: joinNl (hpre2 ++ [hsep]) := by
      rw [List.cons_append, joinNl, joinWith_cons _ _ _ (by simp)]
      rfl
    show (l ++ '\n' :: (joinNl (hpre2 ++ [hsep]) ++ ['\n']), idx + 1 + hpre2.length + 1) = _
    rw [hjoin]
    simp only [Prod.mk.injEq]
    refine ⟨by simp, by simp; omega⟩

/-- The header extraction of `corregir_segmentos` on a chunk built from a
clean header (separator only on its last line) and a body. -/
lemma extraerEncabezado_spec (hpre : List Str) (hsep : Str) (b : List Str)
    (hsepMark : tieneSeparador hsep = true)
    (hpreNoSep : ∀ l ∈ hpre, tieneSeparador l = false)
    (hNl : ∀ l ∈ hpre ++ [hsep], '\n' ∉ l)
    (hbNl : ∀ l ∈ b, '\n' ∉ l) :
    extraerEncabezado (joinNl (hpre ++ [hsep] ++ b)) =
      (joinNl (hpre ++ [hsep]) ++ ['\n'], hpre.length + 1) := by
  have hsplit : splitNl (joinNl (hpre ++ [hsep] ++ b)) = hpre ++ [hsep] ++ b := by
    apply splitNl_joinNl
    · simp
    · intro l hl
      rcases List.mem_append.mp hl with h | h
      · exact hNl l h
      · exact hbNl l h
  unfold extraerEncabezado
  rw [hsplit]
  rw [show hpre ++ [hsep] ++ b = hpre ++ hsep :: b by simp]
  simp only [encabezadoSegundaPasada_spec hsep hsepMark hpre hpreNoSep b 0]
  rw [if_neg]
  · simp only [Prod.mk.injEq]
    exact ⟨trivial, by omega⟩
  · rintro (h | h)
    · exact absurd h (by simp)
    · apply h
      rw [isSubstr_iff_infijo]
      have h1 : lineaSeparadora <:+: hsep := (isSubstr_iff_infijo _ _).mp hsepMark
      have h2 : hsep <:+: joinNl (hpre ++ [hsep]) :=
        infix_joinWith_of_mem '\n' hsep (hpre ++ [hsep]) (by simp)
      have h3 : joinNl (hpre ++ [hsep]) <:+: joinNl (hpre ++ [hsep]) ++ ['\n'] :=
        (List.prefix_append _ _).isInfix
      exact (h1.trans h2).trans h3

/-- The pattern-detection samples of a chunk list with a shared clean
header are the truncated space-joined bodies. -/
lemma muestrasDe_spec (hpre : List Str) (hsep : Str)
    (hsepMark : tieneSeparador hsep = true)
    (hpreNoSep : ∀ l ∈ hpre, tieneSeparador l = false)
    (hNl : ∀ l ∈ hpre ++ [hsep], '\n' ∉ l) :
    ∀ (bs : List (List Str)), (∀ b ∈ bs, b ≠ []) →
      (∀ b ∈ bs, ∀ l ∈ b, '\n' ∉ l) →
      muestrasDe (hpre.length + 1) (bs.map (fun b => joinNl (hpre ++ [hsep] ++ b))) =
        bs.map (fun b => (joinSp b).take 100) := by
  intro bs
  induction bs with
  | nil => intro _ _; rfl
  | cons b rest ih =>
    intro hbne hbNl
    have hsplit : splitNl (joinNl (hpre ++ [hsep] ++ b)) = hpre ++ [hsep] ++ b := by
      apply splitNl_joinNl
      · simp
      · intro l hl
        rcases List.mem_append.mp hl with h | h
        · exact hNl l h
        · exact hbNl b (List.mem_cons_self _ _) l h
    have hblen : 1 ≤ b.length :=
      List.length_pos.mpr (hbne b (List.mem_cons_self _ _))
    rw [List.map_cons]
    unfold muestrasDe
    simp only [hsplit]
    rw [if_pos (by simp; omega)]
    rw [show hpre ++ [hsep] ++ b = (hpre ++ [hsep]) ++ b by simp]
    rw [List.drop_left' (by simp)]
    rw [List.map_cons]
    congr 1
    exact ih (fun x hx => hbne x (List.mem_cons_of_mem b hx))
      (fun x hx => hbNl x (List.mem_cons_of_mem b hx))

/-- The first separator line of a clean-header chunk sits right after the
header prefix. -/
lemma findIdx?_sep (hsep : Str) (hsepMark : tieneSeparador hsep = true) :
    ∀ (hpre : List Str), (∀ l ∈ hpre, tieneSeparador l = false) →
      ∀ (tailL : List Str) (i : ℕ),
        List.findIdx? tieneSeparador (hpre ++ hsep :: tailL) i =
          some (i + hpre.length) := by
  intro hpre
  induction hpre with
  | nil =>
    intro _ tailL i
    rw [List.nil_append, List.findIdx?_cons, if_pos hsepMark]
    simp
  | cons l hpre2 ih =>
    intro hNoSep tailL i
    have hl : tieneSeparador l = false := hNoSep l (List.mem_cons_self _ _)
    rw [List.cons_append, List.findIdx?_cons, if_neg (by simp [hl])]
    rw [ih (fun x hx => hNoSep x (List.mem_cons_of_mem l hx)) tailL (i + 1)]
    congr 1
    simp
    omega

/-- The content contributed by a later chunk: its body, with the common
pattern stripped and the remainder left-stripped. -/
lemma contenidoSegmento_spec (hpre : List Str) (hsep : Str) (b : List Str)
    (patron : Str)
    (hsepMark : tieneSeparador hsep = true)
    (hpreNoSep : ∀ l ∈ hpre, tieneSeparador l = false)
    (hNl : ∀ l ∈ hpre ++ [hsep], '\n' ∉ l)
    (hbNl : ∀ l ∈ b, '\n' ∉ l)
    (hpat : patron ≠ [])
    (hpatPre : patron.isPrefixOf (joinNl b) = true) :
    contenidoSegmento (hpre.length + 1) patron (joinNl (hpre ++ [hsep] ++ b)) =
      lstrip ((joinNl b).drop patron.length) := by
  have hsplit : splitNl (joinNl (hpre ++ [hsep] ++ b)) = hpre ++ [hsep] ++ b := by
    apply splitNl_joinNl
    · simp
    · intro l hl
      rcases List.mem_append.mp hl with h | h
      · exact hNl l h
      · exact hbNl l h
  have hidx : indiceInicio (hpre ++ [hsep] ++ b) = hpre.length + 1 := by
    unfold indiceInicio
    rw [show hpre ++ [hsep] ++ b = hpre ++ hsep :: b by simp]
    rw [findIdx?_sep hsep hsepMark hpre hpreNoSep b 0]
    simp
  have hdrop : (hpre ++ [hsep] ++ b).drop (hpre.length + 1) = b := by
    rw [show hpre ++ [hsep] ++ b = (hpre ++ [hsep]) ++ b by simp]
    exact List.drop_left' (by simp)
  unfold contenidoSegmento
  simp only [hsplit, hidx, if_neg (by omega : ¬ (hpre.length + 1 = 0)), hdrop]
  rw [if_pos ⟨hpat, hpatPre⟩]

/-- Reading a pattern-sample at a position inside the chunk's first body
line. -/
lemma muestra_getD (b : List Str) (hbne : b ≠ []) (hhead : 50 ≤ b.headI.length)
    (i : ℕ) (hi : i < 50) :
    ((joinSp b).take 100).getD i ' ' = b.headI.getD i ' ' := by
  obtain ⟨l₀, r, rfl⟩ := List.exists_cons_of_ne_nil hbne
  simp only [List.headI] at hhead ⊢
  rw [List.getD_eq_getElem?_getD, List.getD_eq_getElem?_getD]
  rw [List.getElem?_take_of_lt (by omega : i < 100)]
  rw [joinSp, joinWith_flat]
  rw [List.getElem?_append_left (by omega)]

/-- A position inside a prefix reads the prefix. -/
lemma prefix_getD (P l : Str) (h : P <+: l) (i : ℕ) (hi : i < P.length) :
    l.getD i ' ' = P.getD i ' ' := by
  obtain ⟨t, rfl⟩ := h
  rw [List.getD_eq_getElem?_getD, List.getD_eq_getElem?_getD,
    List.getElem?_append_left hi]

/-- Two lists agreeing (by `getD`) below `k` have equal `take k` slices. -/
lemma take_eq_take_of_getD (X Y : Str) (k : ℕ) (hX : k ≤ X.length)
    (hY : k ≤ Y.length) (h : ∀ i, i < k → X.getD i ' ' = Y.getD i ' ') :
    X.take k = Y.take k := by
  apply List.ext_getElem
  · rw [List.length_take, List.length_take]
    omega
  · intro i h1 h2
    rw [List.length_take] at h1
    have hik : i < k := by omega
    have hiX : i < X.length := by omega
    have hiY : i < Y.length := by omega
    rw [List.getElem_take, List.getElem_take]
    have hgd := h i hik
    rw [List.getD_eq_getElem X ' ' hiX, List.getD_eq_getElem Y ' ' hiY] at hgd
    exact hgd

/-- The common pattern detected over chunks with a shared clean header whose
bodies all start with a phrase `P` of at least 20 characters (first body
lines at least 50 characters long): the pattern has at least 20 characters
and is a prefix of every body. -/
lemma patronComun_spec (hpre : List Str) (hsep : Str) (bs : List (List Str))
    (P : Str)
    (hsepMark : tieneSeparador hsep = true)
    (hpreNoSep : ∀ l ∈ hpre, tieneSeparador l = false)
    (hNl : ∀ l ∈ hpre ++ [hsep], '\n' ∉ l)
    (hbNl : ∀ b ∈ bs, ∀ l ∈ b, '\n' ∉ l)
    (hb2 : 2 ≤ bs.length)
    (hbne : ∀ b ∈ bs, b ≠ [])
    (hhead : ∀ b ∈ bs, 50 ≤ b.headI.length)
    (hP20 : 20 ≤ P.length) (hPnl : '\n' ∉ P)
    (hPpre : ∀ b ∈ bs, P.isPrefixOf (joinNl b) = true) :
    20 ≤ (patronComun (bs.map (fun b => joinNl (hpre ++ [hsep] ++ b)))
      (hpre.length + 1)).length ∧
    ∀ b ∈ bs, (patronComun (bs.map (fun b => joinNl (hpre ++ [hsep] ++ b)))
      (hpre.length + 1)).isPrefixOf (joinNl b) = true := by
  have hPhead : ∀ b ∈ bs, P <+: b.headI := by
    intro b hb
    obtain ⟨l₀, r, hb'⟩ := List.exists_cons_of_ne_nil (hbne b hb)
    subst hb'
    exact prefix_head_of_prefix_joinNl P l₀ r hPnl
      (List.isPrefixOf_iff_prefix.mp (hPpre _ hb))
  have hflen : ∀ b ∈ bs, 50 ≤ ((joinSp b).take 100).length := by
    intro b hb
    rw [List.length_take]
    obtain ⟨l₀, r, hb'⟩ := List.exists_cons_of_ne_nil (hbne b hb)
    subst hb'
    have h50 : 50 ≤ l₀.length := by simpa [List.headI] using hhead _ hb
    have : 50 ≤ (joinSp (l₀ :: r)).length := by
      rw [joinSp, joinWith_flat, List.length_append]
      omega
    omega
  have hgetP : ∀ b ∈ bs, ∀ i, i < P.length → i < 50 →
      ((joinSp b).take 100).getD i ' ' = P.getD i ' ' := by
    intro b hb i hiP hi50
    rw [muestra_getD b (hbne b hb) (hhead b hb) i hi50]
    exact prefix_getD P b.headI (hPhead b hb) i hiP
  obtain ⟨b₁, bs2, rfl⟩ : ∃ b₁ bs2, bs = b₁ :: bs2 := by
    cases bs with
    | nil => simp at hb2
    | cons x xs => exact ⟨x, xs, rfl⟩
  have hb2' : 1 ≤ bs2.length := by simpa using hb2
  have hb₁ : b₁ ∈ b₁ :: bs2 := List.mem_cons_self _ _
  rw [List.map_cons]
  unfold patronComun
  rw [if_pos (by simp only [List.length_cons, List.length_map]; omega)]
  have hmu := muestrasDe_spec hpre hsep hsepMark hpreNoSep hNl (b₁ :: bs2) hbne hbNl
  rw [List.map_cons] at hmu
  simp only [hmu, List.map_cons]
  set m0 : Str := (joinSp b₁).take 100 with hm0
  set ms : List Str := bs2.map (fun b => (joinSp b).take 100) with hms
  have hmem : ∀ m ∈ m0 :: ms, ∃ b ∈ b₁ :: bs2, m = (joinSp b).take 100 := by
    intro m hm
    rcases List.mem_cons.mp hm with rfl | hm
    · exact ⟨b₁, hb₁, rfl⟩
    · obtain ⟨b, hb, rfl⟩ := List.mem_map.mp hm
      exact ⟨b, List.mem_cons_of_mem _ hb, rfl⟩
  have hfold : 50 ≤ ms.foldl (fun a m => min a m.length) m0.length := by
    apply foldl_min_ge
    · exact hflen b₁ hb₁
    · intro m hm
      obtain ⟨b, hb, rfl⟩ := hmem m (List.mem_cons_of_mem _ hm)
      exact hflen b hb
  have hlim : min 50 (ms.foldl (fun a m => min a m.length) m0.length) = 50 :=
    min_eq_left hfold
  rw [hlim]
  set pred : ℕ → Bool := fun i =>
    (m0 :: ms).all (fun m => decide (m.getD i ' ' = m0.getD i ' ')) with hpreddef
  have hagree : ∀ i, i < min P.length 50 → pred i = true := by
    intro i hi
    rw [hpreddef]
    rw [List.all_eq_true]
    intro m hm
    obtain ⟨b, hb, rfl⟩ := hmem m hm
    rw [decide_eq_true_eq]
    rw [hgetP b hb i (by omega) (by omega), hm0,
      hgetP b₁ hb₁ i (by omega) (by omega)]
  set pl : ℕ := ((List.range 50).takeWhile pred).length with hpl
  have hplge : min P.length 50 ≤ pl := by
    have := len_takeWhile_ge pred (List.range 50) (min P.length 50)
      (by
        intro x hx
        rw [List.take_range] at hx
        have hxlt : x < min (min P.length 50) 50 := List.mem_range.mp hx
        exact hagree x (by omega))
    rw [List.length_range] at this
    omega
  have hplle : pl ≤ 50 := by
    have hpref : (List.range 50).takeWhile pred <+: List.range 50 :=
      List.takeWhile_prefix pred
    have := hpref.length_le
    rw [List.length_range] at this
    exact this
  have hpl20 : 20 ≤ pl := by omega
  rw [if_pos hpl20]
  have hm0len : pl ≤ m0.length := le_trans (by omega) (hflen b₁ hb₁)
  have hlen_take : (m0.take pl).length = pl := by
    rw [List.length_take]
    omega
  have hpred_of_lt : ∀ i, i < pl → pred i = true := by
    intro i hi
    have heq : (List.range 50).takeWhile pred = List.range pl := by
      have h1 : (List.range 50).takeWhile pred <+: List.range 50 :=
        List.takeWhile_prefix pred
      rw [List.prefix_iff_eq_take.mp h1, List.take_range]
      congr 1
      omega
    have : i ∈ (List.range 50).takeWhile pred := by
      rw [heq]
      exact List.mem_range.mpr hi
    exact List.mem_takeWhile_imp this
  have hsample_eq : ∀ b ∈ b₁ :: bs2, ∀ i, i < pl →
      ((joinSp b).take 100).getD i ' ' = m0.getD i ' ' := by
    intro b hb i hi
    have hp := hpred_of_lt i hi
    rw [hpreddef, List.all_eq_true] at hp
    have hmemb : (joinSp b).take 100 ∈ m0 :: ms := by
      rcases List.mem_cons.mp hb with rfl | hb
      · exact List.mem_cons_self _ _
      · exact List.mem_cons_of_mem _ (List.mem_map.mpr ⟨b, hb, rfl⟩)
    have := hp _ hmemb
    rwa [decide_eq_true_eq] at this
  have hpatron_eq : ∀ b ∈ b₁ :: bs2, m0.take pl = b.headI.take pl := by
    intro b hb
    have hb50 : 50 ≤ b.headI.length := hhead b hb
    apply take_eq_take_of_getD
    · exact hm0len
    · omega
    · intro i hi
      exact (hsample_eq b hb i hi).symm.trans
        (muestra_getD b (hbne b hb) hb50 i (by omega))
  constructor
  · rw [hlen_take]
    omega
  · intro b hb
    rw [List.isPrefixOf_iff_prefix]
    rw [hpatron_eq b hb]
    obtain ⟨l₀, r, hb'⟩ := List.exists_cons_of_ne_nil (hbne b hb)
    subst hb'
    simp only [List.headI]
    calc l₀.take pl <+: l₀ := List.take_prefix pl l₀
      _ <+: joinNl (l₀ :: r) := by
          rw [joinNl, joinWith_flat]
          exact List.prefix_append _ _

/-- `occCount` of a nonempty pattern in the empty text is 0. -/
lemma occCount_nil_of_ne (P : Str) (hP : P ≠ []) : occCount P [] = 0 := by
  cases P with
  | nil => exact absurd rfl hP
  | cons c t => rfl

/-- Occurrence counting over the reassembly fold: the accumulator's count
plus the count of each appended content. -/
lemma occCount_foldl (P : Str) (hP : P ≠ []) (hPnl : '\n' ∉ P) (g : Str → Str) :
    ∀ (cs : List Str) (acc : Str),
      occCount P (cs.foldl (fun a seg =>
        if g seg = [] then a else a ++ '\n' :: g seg) acc) =
      occCount P acc + (cs.map (fun seg => occCount P (g seg))).sum := by
  intro cs
  induction cs with
  | nil => intro acc; simp
  | cons c cs2 ih =>
    intro acc
    rw [List.foldl_cons, ih, List.map_cons, List.sum_cons]
    by_cases hc : g c = []
    · rw [if_pos hc, hc, occCount_nil_of_ne P hP]
      omega
    · rw [if_neg hc, occCount_append_nl P hP hPnl acc (g c)]
      omega

/-- The reassembly fold only appends to its accumulator. -/
lemma foldl_append_suffix (g : Str → Str) :
    ∀ (cs : List Str) (acc : Str), ∃ w,
      cs.foldl (fun a seg => if g seg = [] then a else a ++ '\n' :: g seg) acc =
        acc ++ w := by
  intro cs
  induction cs with
  | nil => intro acc; exact ⟨[], by simp⟩
  | cons c cs2 ih =>
    intro acc
    rw [List.foldl_cons]
    by_cases hc : g c = []
    · rw [if_pos hc]
      exact ih acc
    · rw [if_neg hc]
      obtain ⟨w, hw⟩ := ih (acc ++ '\n' :: g c)
      exact ⟨'\n' :: g c ++ w, by rw [hw, List.append_assoc]⟩

/-- C6 (amended): three or more corrected chunks share a clean header (its
separator line last) and bodies that all begin with the same newline-free
literal phrase `P` of at least 20 characters; additionally each body's
first line has at least 50 characters, `P` occurs in each body exactly once
(as its leading prefix) and not at all in the header.  Then the reassembled
document contains `P` exactly once, at the very start of the body (right
after the header and its newline). -/
theorem C6_reensamblado (hpre : List Str) (hsep : Str) (bs : List (List Str))
    (P : Str)
    (hsepMark : tieneSeparador hsep = true)
    (hpreNoSep : ∀ l ∈ hpre, tieneSeparador l = false)
    (hNl : ∀ l ∈ hpre ++ [hsep], '\n' ∉ l)
    (hbNl : ∀ b ∈ bs, ∀ l ∈ b, '\n' ∉ l)
    (hb3 : 3 ≤ bs.length)
    (hbne : ∀ b ∈ bs, b ≠ [])
    (hhead : ∀ b ∈ bs, 50 ≤ b.headI.length)
    (hP20 : 20 ≤ P.length) (hPnl : '\n' ∉ P)
    (hPpre : ∀ b ∈ bs, P.isPrefixOf (joinNl b) = true)
    (hPonce : ∀ b ∈ bs, occCount P (joinNl b) = 1)
    (hPhdr : occCount P (joinNl (hpre ++ [hsep])) = 0) :
    occCount P (combinar_segmentos
      (bs.map (fun b => joinNl (hpre ++ [hsep] ++ b)))) = 1 ∧
    P.isPrefixOf ((combinar_segmentos
      (bs.map (fun b => joinNl (hpre ++ [hsep] ++ b)))).drop
        ((joinNl (hpre ++ [hsep])).length + 1)) = true := by
  have hP : P ≠ [] := by
    intro e
    rw [e] at hP20
    simp at hP20
  obtain ⟨b₁, bs2, rfl⟩ : ∃ b₁ bs2, bs = b₁ :: bs2 := by
    cases bs with
    | nil => simp at hb3
    | cons x xs => exact ⟨x, xs, rfl⟩
  have hb₁ : b₁ ∈ b₁ :: bs2 := List.mem_cons_self _ _
  obtain ⟨hpat20, hpatpre⟩ := patronComun_spec hpre hsep (b₁ :: bs2) P hsepMark
    hpreNoSep hNl hbNl (by simp only [List.length_cons] at hb3 ⊢; omega)
    hbne hhead hP20 hPnl hPpre
  rw [List.map_cons] at hpat20 hpatpre
  have hpatne : patronComun
      (joinNl (hpre ++ [hsep] ++ b₁) ::
        bs2.map (fun b => joinNl (hpre ++ [hsep] ++ b))) (hpre.length + 1) ≠ [] := by
    intro e
    rw [e] at hpat20
    simp at hpat20
  have hext := extraerEncabezado_spec hpre hsep b₁ hsepMark hpreNoSep hNl
    (hbNl b₁ hb₁)
  have hsplit₁ : splitNl (joinNl (hpre ++ [hsep] ++ b₁)) = hpre ++ [hsep] ++ b₁ := by
    apply splitNl_joinNl
    · simp
    · intro l hl
      rcases List.mem_append.mp hl with h | h
      · exact hNl l h
      · exact hbNl b₁ hb₁ l h
  have hdrop₁ : (hpre ++ [hsep] ++ b₁).drop (hpre.length + 1) = b₁ := by
    rw [show hpre ++ [hsep] ++ b₁ = (hpre ++ [hsep]) ++ b₁ by simp]
    exact List.drop_left' (by simp)
  rw [List.map_cons]
  unfold combinar_segmentos
  simp only [hext, hsplit₁, hdrop₁]
  set pat : Str := patronComun
    (joinNl (hpre ++ [hsep] ++ b₁) ::
      bs2.map (fun b => joinNl (hpre ++ [hsep] ++ b))) (hpre.length + 1) with hpatdef
  have hcont : ∀ b ∈ b₁ :: bs2,
      contenidoSegmento (hpre.length + 1) pat (joinNl (hpre ++ [hsep] ++ b)) =
        lstrip ((joinNl b).drop pat.length) := fun b hb =>
    contenidoSegmento_spec hpre hsep b pat hsepMark hpreNoSep hNl (hbNl b hb)
      hpatne (hpatpre b hb)
  have hocc0 : ∀ b ∈ b₁ :: bs2,
      occCount P (lstrip ((joinNl b).drop pat.length)) = 0 := by
    intro b hb
    have h1 : occCount P ((joinNl b).drop pat.length) = 0 :=
      occCount_drop_eq_zero P (joinNl b) hP (hPonce b hb) (hPpre b hb)
        pat.length (by omega)
    have h2 := occCount_suffix_le P ((joinNl b).drop pat.length)
      (((joinNl b).drop pat.length).dropWhile pyWs) (List.dropWhile_suffix pyWs)
    unfold lstrip
    omega
  constructor
  · rw [occCount_foldl P hP hPnl (contenidoSegmento (hpre.length + 1) pat)]
    have hbase : occCount P
        ((joinNl (hpre ++ [hsep]) ++ ['\n']) ++ joinNl b₁) = 1 := by
      rw [List.append_assoc]
      rw [show ['\n'] ++ joinNl b₁ = '\n' :: joinNl b₁ from rfl]
      rw [occCount_append_nl P hP hPnl]
      rw [hPhdr, hPonce b₁ hb₁]
    rw [hbase]
    have hsum : ((bs2.map (fun b => joinNl (hpre ++ [hsep] ++ b))).map
        (fun seg => occCount P (contenidoSegmento (hpre.length + 1) pat seg))).sum
          = 0 := by
      apply List.sum_eq_zero
      intro x hx
      rw [List.mem_map] at hx
      obtain ⟨seg, hseg, rfl⟩ := hx
      rw [List.mem_map] at hseg
      obtain ⟨b, hb, rfl⟩ := hseg
      rw [hcont b (List.mem_cons_of_mem _ hb), hocc0 b (List.mem_cons_of_mem _ hb)]
    rw [hsum]
  · obtain ⟨w, hw⟩ := foldl_append_suffix (contenidoSegmento (hpre.length + 1) pat)
      (bs2.map (fun b => joinNl (hpre ++ [hsep] ++ b)))
      ((joinNl (hpre ++ [hsep]) ++ ['\n']) ++ joinNl b₁)
    rw [hw]
    rw [show ((joinNl (hpre ++ [hsep]) ++ ['\n']) ++ joinNl b₁) ++ w =
      (joinNl (hpre ++ [hsep]) ++ ['\n']) ++ (joinNl b₁ ++ w) by
        simp [List.append_assoc]]
    rw [List.drop_left' (by simp)]
    rw [List.isPrefixOf_iff_prefix]
    exact (List.isPrefixOf_iff_prefix.mp (hPpre b₁ hb₁)).trans
      (List.prefix_append _ _)

/-- Counterexample for C6 as stated: three chunks whose bodies all begin
with the 22-character phrase "Brothers and sisters, ", yet the reassembled
document does not contain the phrase exactly once — the first chunk repeats
it in the middle of its body, and reassembly keeps the first chunk's
content in full. -/
theorem C6_counterexample :
    20 ≤ fraseC6.length ∧
    (∀ ch ∈ chunksRepetidos,
      fraseC6.isPrefixOf (joinNl ((splitNl ch).drop (extraerEncabezado ch).2)) = true) ∧
    occCount fraseC6 (combinar_segmentos chunksRepetidos) ≠ 1 := by decide

/-- Witness for C6 (amended): three clean chunks whose bodies carry the
phrase exactly once reassemble to a document containing it exactly once, at
the very start of the body. -/
theorem C6_reensamblado_witness :
    occCount fraseC6 (combinar_segmentos
      (cuerposLimpios.map (fun b =>
        joinNl (["Sermon title".data] ++ ["================".data] ++ b)))) = 1 ∧
    fraseC6.isPrefixOf ((combinar_segmentos
      (cuerposLimpios.map (fun b =>
        joinNl (["Sermon title".data] ++ ["================".data] ++ b)))).drop
      ((joinNl (["Sermon title".data] ++ ["================".data])).length + 1)) =
        true :=
  C6_reensamblado ["Sermon title".data] "================".data cuerposLimpios
    fraseC6 (by decide) (by decide) (by decide) (by decide) (by decide)
    (by decide) (by decide) (by decide) (by decide) (by decide) (by decide)
    (by decide)

end SermonGen
